import Mathlib

/-!
Verification of the repeated-trial benchmark engine (`benchmark.py`).

The Python source is shallowly embedded below: pure helpers become Lean
functions over `ℚ` (exact rationals model the real-valued durations), the
trial runner becomes a pure function that also returns an explicit event
trace, and the report formatter works over `List Char` rows.  Python's
`round` (banker's rounding, ties to even) is modelled by `roundHalfEven`,
`list.sort` / the sort inside `statistics.median` by a stable ascending
sort (`List.insertionSort`), and f-string formatting of numbers by an
abstract formatting parameter `fmt : ℚ → List Char`.
-/

namespace Benchmark

/-- Python's `round(x)` / `round(x, 0)`: round to the nearest integer,
ties going to the even integer (banker's rounding). -/
def roundHalfEven (q : ℚ) : ℤ :=
  if q - ⌊q⌋ < 1 / 2 then ⌊q⌋
  else if (1 : ℚ) / 2 < q - ⌊q⌋ then ⌊q⌋ + 1
  else if 2 ∣ ⌊q⌋ then ⌊q⌋ else ⌊q⌋ + 1

/-- Python's `round(x, 2)`: round to two decimal places, ties to even. -/
def round2 (q : ℚ) : ℚ :=
  (roundHalfEven (100 * q) : ℚ) / 100

/-- `statistics.mean`: the arithmetic mean of a list (the Python version
raises on an empty list; here the empty list gives the junk value `0/0 = 0`,
and every claim about the mean assumes a non-empty list). -/
def mean (l : List ℚ) : ℚ :=
  l.sum / (l.length : ℚ)

/-- `statistics.median`: sort ascending, take the middle element for odd
length and the average of the two middle elements for even length.
Python's `sorted` is a stable ascending sort, modelled by `insertionSort`. -/
def pymedian (l : List ℚ) : ℚ :=
  let s := l.insertionSort (· ≤ ·)
  if l.length % 2 = 1 then s.getD (l.length / 2) 0
  else (s.getD (l.length / 2 - 1) 0 + s.getD (l.length / 2) 0) / 2

/-- The conventional statistical median as the spec states it, defined over
the multiset of values (so reorder-invariance is built into the type): sort
the multiset ascending, average the two middle values for even length. -/
def conventionalMedian (h : List ℚ) : ℚ :=
  let s := Multiset.sort (· ≤ ·) (h : Multiset ℚ)
  if h.length % 2 = 1 then s.getD (h.length / 2) 0
  else (s.getD (h.length / 2 - 1) 0 + s.getD (h.length / 2) 0) / 2

/-- `improvement(base, better)` from the source: the percentage faster. -/
def improvement (base better : ℚ) : ℚ :=
  100 * ((base - better) / base)

/-- The `time_remaining` lambda of the base branch in `main`
(`int(round(mean(l) * (n - len(l)), 0))`): the Linear-remaining policy. -/
def time_remaining_linear (l : List ℚ) (n : ℕ) : ℤ :=
  roundHalfEven (mean l * (((n : ℤ) - (l.length : ℤ) : ℤ) : ℚ))

/-- The `time_remaining` lambda of the dev branch in `main`
(`int(round(mean(l) * ((2 * n) - len(l)), 0))`): the Double-remaining policy. -/
def time_remaining_double (l : List ℚ) (n : ℕ) : ℤ :=
  roundHalfEven (mean l * (((2 * (n : ℤ)) - (l.length : ℤ) : ℤ) : ℚ))

/-- `time_string` from the source: render a second count, coarsening to
minutes above 60 and to hours above 3600, rounding the division up. -/
def time_string (seconds : ℤ) : String :=
  if 3600 < seconds then toString ⌈(seconds : ℚ) / 3600⌉ ++ " hours"
  else if 60 < seconds then toString ⌈(seconds : ℚ) / 60⌉ ++ " minutes"
  else toString seconds ++ " seconds"

/-- One `(key, value, fill)` triple handed to `print_results`.  Rows are
modelled as `List Char` so that row lengths are plain list lengths. -/
structure ReportLine where
  label : List Char
  value : Option (List Char)
  fill : Char
deriving DecidableEq, Repr, Inhabited

/-- `len_none_is_zero` from the source: measure the length of `None` as 0. -/
def len_none_is_zero : Option (List Char) → ℕ
  | none => 0
  | some x => x.length

/-- `key_len_of_non_none_values` from the source: the key width of a line,
except that a line whose value is `None` does not contribute its key. -/
def key_len_of_non_none_values (kv : ReportLine) : ℕ :=
  match kv.value with
  | none => 0
  | some _ => kv.label.length

/-- `pair_to_line` from the source.  A valueless line is centered with
`ceil((full_width - len(label)) / 2)` fill characters on each side (Python's
negative list repetition yields the empty list, matched here by truncated
subtraction); a valued line is the key, then fill padding, then the value. -/
def pair_to_line (full_width : ℕ) (kv : ReportLine) : List Char :=
  match kv.value with
  | none =>
      let padding_size := (full_width - kv.label.length + 1) / 2
      let padding := List.replicate padding_size kv.fill
      padding ++ kv.label ++ padding
  | some v =>
      let padding := List.replicate (full_width - kv.label.length - v.length) kv.fill
      kv.label ++ padding ++ v

/-- The synthetic header line prepended by `print_results`. -/
def header_line : ReportLine :=
  ⟨"  Benchmark stats  ".toList, none, ':'⟩

/-- `print_results` from the source, as a pure function returning the rows
it would print: prepend the header, render each line at width
`min_separation + max_key_width + max_value_width`, then truncate every row
to the length of the second-to-last row (Python's `line_lengths[len - 2]`,
which for a single row is that row, matched by truncated subtraction). -/
def print_results (kvs0 : List ReportLine) : List (List Char) :=
  let kvs := header_line :: kvs0
  let min_separation : ℕ := 6
  let max_key_width := kvs.foldl (fun x y => max x (key_len_of_non_none_values y)) 0
  let max_value_width := kvs.foldl (fun x y => max x (len_none_is_zero y.value)) 0
  let lines := kvs.map (pair_to_line (min_separation + max_key_width + max_value_width))
  let line_lengths := lines.map List.length
  let full_width := line_lengths.getD (line_lengths.length - 2) 0
  lines.map (fun line => line.take full_width)

/-- `get_stat` from the source: the report lines for one statistic.  The
caller rounds the improvement to two decimals; a positive percentage is
reported as IMPROVED BY, otherwise DEGRADED BY with the absolute value.
`fmt` abstracts Python's f-string rendering of a number. -/
def get_stat (fmt : ℚ → List Char) (name : List Char) (dev base : ℚ) :
    List ReportLine :=
  let percent := round2 (improvement base dev)
  let lines : List ReportLine :=
    [⟨name ++ " dev".toList, some (fmt dev), '.'⟩,
     ⟨name ++ " base".toList, some (fmt base), '.'⟩]
  if 0 < percent then
    lines ++ [⟨"IMPROVED BY".toList, some (fmt percent ++ " ".toList), '.'⟩,
      ⟨[], none, ' '⟩]
  else
    lines ++ [⟨"DEGRADED BY".toList, some (fmt |percent| ++ " %".toList), '.'⟩,
      ⟨[], none, ' '⟩]

/-- `gather_output` from the source.  Python sorts `dev` and `base` in place
(`dev.sort()`), so the embedding returns, besides the report lines, the
post-call contents of the two history lists. -/
def gather_output (fmt : ℚ → List Char) (devName baseName : List Char)
    (dev base : List ℚ) : List ReportLine × List ℚ × List ℚ :=
  let dev' := dev.insertionSort (· ≤ ·)
  let base' := base.insertionSort (· ≤ ·)
  ([⟨"command".toList, some "dbt parse".toList, '.'⟩,
    ⟨"dev branch".toList, some ("dbt/".toList ++ devName), '.'⟩,
    ⟨"base branch".toList, some ("dbt/".toList ++ baseName), '.'⟩,
    ⟨[], none, ' '⟩,
    ⟨"time measured in seconds".toList, none, ' '⟩,
    ⟨[], none, ' '⟩]
    ++ get_stat fmt "mean".toList (round2 (mean dev')) (round2 (mean base'))
    ++ get_stat fmt "median".toList (round2 (pymedian dev')) (round2 (pymedian base')),
   dev', base')

/-- One observable step of `execute_run`, in source order: the log lines it
prints, the calls it makes into the caller-supplied thunks, the history
appends, the estimator queries, and the dry-run history assignments. -/
inductive Event where
  | logSetupMsg : Event
  | setupCall : Event
  | assignRuns : List ℚ → Event
  | logRunStart : ℕ → ℕ → Event
  | trialTimed : ℚ → Event
  | appendRun : ℚ → Event
  | estimatorQuery : ℤ → Event
  | logCompleted : ℚ → Event
  | logRemaining : ℤ → Event
  | logCleanupMsg : Event
  | cleanupCall : Event
deriving DecidableEq, Repr

/-- The `Run` class from the source.  The caller-supplied `run_thunk` is
opaque; all the engine observes of it is the duration measured by `time`,
modelled by `durations k`, the duration of the trial executed when `k`
trials have already completed.  `setup_thunk` and `cleanup_thunk` have no
value the engine consumes, so only their invocations appear in the trace. -/
structure Run where
  name : List Char
  run_count : ℕ
  durations : ℕ → ℚ
  time_remaining : List ℚ → ℕ → ℤ

/-- One iteration of the `for` loop in `execute_run`, given the history so
far: log the run header, time the thunk, append the duration, query the
estimator on the grown history, log completion, the remaining-time estimate
and the cleanup message, then call the cleanup thunk. -/
def trial_cycle (b : Run) (runs : List ℚ) : List ℚ × List Event :=
  let run := b.durations runs.length
  let runs' := runs ++ [run]
  let remaining := b.time_remaining runs' b.run_count
  (runs',
   [Event.logRunStart (runs.length + 1) b.run_count,
    Event.trialTimed run,
    Event.appendRun run,
    Event.estimatorQuery remaining,
    Event.logCompleted run,
    Event.logRemaining remaining,
    Event.logCleanupMsg,
    Event.cleanupCall])

/-- The `for thunk in ([branch.run_thunk] * branch.run_count)` loop of
`execute_run`: `n` further iterations starting from history `runs`. -/
def run_loop (b : Run) : ℕ → List ℚ → List ℚ × List Event
  | 0, runs => (runs, [])
  | n + 1, runs =>
      let step := trial_cycle b runs
      let rest := run_loop b n step.1
      (rest.1, step.2 ++ rest.2)

/-- `execute_run` from the source: log and run the branch setup, then either
fabricate the dry-run history (`run_count < 1`; the source assigns
`[1.0] * 10` twice) or execute the trial loop.  Returns the final history
together with the event trace. -/
def execute_run (b : Run) : List ℚ × List Event :=
  if b.run_count < 1 then
    (List.replicate 10 1,
     [Event.logSetupMsg, Event.setupCall,
      Event.assignRuns (List.replicate 10 1),
      Event.assignRuns (List.replicate 10 1)])
  else
    let looped := run_loop b b.run_count []
    (looped.1, [Event.logSetupMsg, Event.setupCall] ++ looped.2)

/-- Does an event record a timed execution of the trial thunk? -/
def is_trial_timed : Event → Bool
  | Event.trialTimed _ => true
  | _ => false

/-- Does an event record a call of the cleanup thunk? -/
def is_cleanup_call : Event → Bool
  | Event.cleanupCall => true
  | _ => false

/-- Does an event record a query of the remaining-time estimator? -/
def is_estimator_query : Event → Bool
  | Event.estimatorQuery _ => true
  | _ => false

/-- Does an event record a call of the branch setup thunk? -/
def is_setup_call : Event → Bool
  | Event.setupCall => true
  | _ => false

/-- Does an event record a dry-run history assignment? -/
def is_assign_runs : Event → Bool
  | Event.assignRuns _ => true
  | _ => false

/-- A trivial number formatter, standing in for f-string rendering where a
concrete counterexample does not care about the rendered digits. -/
def fmt0 : ℚ → List Char := fun _ => []

/-- A branch configured for zero trials (dry-run mode). -/
def run0 : Run := ⟨"dev".toList, 0, fun _ => 1, time_remaining_linear⟩

/-- A branch configured for one trial taking 2 seconds. -/
def run1 : Run := ⟨"base".toList, 1, fun _ => 2, time_remaining_linear⟩

/-- Report input whose second-to-last line is a separator: two blank
separator lines after a single valued line of odd full width. -/
def c7cex : List ReportLine :=
  [⟨"k".toList, some "va".toList, '.'⟩, ⟨[], none, ' '⟩, ⟨[], none, ' '⟩]

/-- Report input of the shape the program produces: the second-to-last
line carries a value. -/
def c7wit : List ReportLine :=
  [⟨"mean dev".toList, some "5.0".toList, '.'⟩,
   ⟨"mean base".toList, some "5.0".toList, '.'⟩]

/-- The trial loop appends exactly one duration per iteration. -/
theorem run_loop_length (b : Run) :
    ∀ (n : ℕ) (runs : List ℚ), ((run_loop b n runs).1).length = runs.length + n := by
  intro n
  induction n with
  | zero => intro runs; simp [run_loop]
  | succ n ih =>
      intro runs
      simp only [run_loop, trial_cycle]
      rw [ih]
      simp
      omega

/-- C2 (amended): a branch with at least one planned trial ends with a
history of exactly its planned length, so the history never exceeds the
planned trial count; the dry-run escape hatch (planned count zero) is the
sole exception and is excluded here. -/
theorem history_length_eq_run_count (b : Run) (h : 1 ≤ b.run_count) :
    (execute_run b).1.length = b.run_count := by
  have hlt : ¬ b.run_count < 1 := by omega
  simp [execute_run, hlt, run_loop_length]

/-- Witness for `history_length_eq_run_count` at the one-trial branch. -/
theorem history_length_eq_run_count_witness :
    1 ≤ run1.run_count ∧ (execute_run run1).1.length = run1.run_count :=
  ⟨by norm_num [run1], history_length_eq_run_count run1 (by norm_num [run1])⟩

/-- Counterexample to C2 as stated: in dry-run mode (planned count 0) the
fabricated history has 10 entries, strictly exceeding the planned count. -/
theorem history_exceeds_run_count_in_dry_run :
    (execute_run run0).1.length = 10 ∧
    ¬ (execute_run run0).1.length ≤ run0.run_count := by
  constructor <;> norm_num [execute_run, run0]

/-- C3: a branch with planned count below one gets the fabricated history
of exactly ten entries, each 1.0, for any configured actions, and the
trial thunk is never timed (no trial event is in the trace). -/
theorem dry_run_fabricates_history (b : Run) (h : b.run_count < 1) :
    (execute_run b).1 = List.replicate 10 1 ∧
    (execute_run b).1.length = 10 ∧
    (∀ d ∈ (execute_run b).1, d = 1) ∧
    (execute_run b).2.countP is_trial_timed = 0 := by
  have h1 : (execute_run b).1 = List.replicate 10 1 := by
    simp [execute_run, h]
  have h2 : (execute_run b).2 =
      [Event.logSetupMsg, Event.setupCall,
       Event.assignRuns (List.replicate 10 1),
       Event.assignRuns (List.replicate 10 1)] := by
    simp [execute_run, h]
  refine ⟨h1, ?_, ?_, ?_⟩
  · rw [h1]; simp
  · rw [h1]; intro d hd; exact List.eq_of_mem_replicate hd
  · rw [h2]; rfl

/-- Witness for `dry_run_fabricates_history` at the zero-trial branch. -/
theorem dry_run_fabricates_history_witness :
    run0.run_count < 1 ∧
    ((execute_run run0).1 = List.replicate 10 1 ∧
     (execute_run run0).1.length = 10 ∧
     (∀ d ∈ (execute_run run0).1, d = 1) ∧
     (execute_run run0).2.countP is_trial_timed = 0) :=
  ⟨by norm_num [run0], dry_run_fabricates_history run0 (by norm_num [run0])⟩

/-- C10: in dry-run mode the branch setup thunk is still called, exactly
once, before the fabricated history is assigned, and the cleanup thunk is
never called. -/
theorem dry_run_setup_once_no_cleanup (b : Run) (h : b.run_count < 1) :
    (execute_run b).2 =
      [Event.logSetupMsg, Event.setupCall,
       Event.assignRuns (List.replicate 10 1),
       Event.assignRuns (List.replicate 10 1)] ∧
    (execute_run b).2.countP is_setup_call = 1 ∧
    (execute_run b).2.countP is_cleanup_call = 0 ∧
    (execute_run b).2.findIdx is_setup_call <
      (execute_run b).2.findIdx is_assign_runs := by
  have h2 : (execute_run b).2 =
      [Event.logSetupMsg, Event.setupCall,
       Event.assignRuns (List.replicate 10 1),
       Event.assignRuns (List.replicate 10 1)] := by
    simp [execute_run, h]
  refine ⟨h2, ?_, ?_, ?_⟩ <;> rw [h2] <;> decide

/-- Witness for `dry_run_setup_once_no_cleanup` at the zero-trial branch. -/
theorem dry_run_setup_once_no_cleanup_witness :
    run0.run_count < 1 ∧
    ((execute_run run0).2 =
      [Event.logSetupMsg, Event.setupCall,
       Event.assignRuns (List.replicate 10 1),
       Event.assignRuns (List.replicate 10 1)] ∧
     (execute_run run0).2.countP is_setup_call = 1 ∧
     (execute_run run0).2.countP is_cleanup_call = 0 ∧
     (execute_run run0).2.findIdx is_setup_call <
       (execute_run run0).2.findIdx is_assign_runs) :=
  ⟨by norm_num [run0], dry_run_setup_once_no_cleanup run0 (by norm_num [run0])⟩

/-- The one-trial branch estimates zero remaining time after its trial. -/
theorem run1_remaining : time_remaining_linear [2] 1 = 0 := by
  norm_num [time_remaining_linear, mean, roundHalfEven]

/-- The full event trace of the one-trial branch. -/
theorem run1_trace :
    (execute_run run1).2 =
      [Event.logSetupMsg, Event.setupCall,
       Event.logRunStart 1 1, Event.trialTimed 2, Event.appendRun 2,
       Event.estimatorQuery 0, Event.logCompleted 2, Event.logRemaining 0,
       Event.logCleanupMsg, Event.cleanupCall] := by
  simp [execute_run, run1, run_loop, trial_cycle, run1_remaining]

/-- Counterexample to C8 as stated: on a one-trial branch, the estimator
query (trace position 5) happens strictly before the cleanup call (trace
position 9), so the cleanup does not precede the estimator query. -/
theorem estimator_query_precedes_cleanup_cex :
    (execute_run run1).2.findIdx is_estimator_query = 5 ∧
    (execute_run run1).2.findIdx is_cleanup_call = 9 ∧
    (execute_run run1).2.length = 10 ∧
    ¬ (execute_run run1).2.findIdx is_cleanup_call <
        (execute_run run1).2.findIdx is_estimator_query := by
  rw [run1_trace]
  refine ⟨by decide, by decide, by decide, by decide⟩

/-- The trial loop's trace is a join of per-trial blocks, each of the fixed
shape: run-start log, timing, append, estimator query, completion log,
remaining-time log, cleanup log, cleanup call. -/
theorem run_loop_blocks (b : Run) :
    ∀ (n : ℕ) (runs : List ℚ), ∃ blocks : List (List Event),
      (run_loop b n runs).2 = blocks.flatten ∧
      blocks.length = n ∧
      ∀ blk ∈ blocks, ∃ k d r,
        blk = [Event.logRunStart k b.run_count, Event.trialTimed d,
               Event.appendRun d, Event.estimatorQuery r,
               Event.logCompleted d, Event.logRemaining r,
               Event.logCleanupMsg, Event.cleanupCall] := by
  intro n
  induction n with
  | zero => intro runs; exact ⟨[], by simp [run_loop], rfl, by simp⟩
  | succ n ih =>
      intro runs
      obtain ⟨blocks, hb1, hb2, hb3⟩ := ih (runs ++ [b.durations runs.length])
      refine ⟨(trial_cycle b runs).2 :: blocks, ?_, by simp [hb2], ?_⟩
      · show (trial_cycle b runs).2 ++ (run_loop b n (trial_cycle b runs).1).2 = _
        rw [List.flatten_cons, ← hb1]
        rfl
      · intro blk hblk
        rcases List.mem_cons.mp hblk with hh | hh
        · exact hh ▸
            ⟨runs.length + 1, b.durations runs.length,
             b.time_remaining (runs ++ [b.durations runs.length]) b.run_count, rfl⟩
        · exact hb3 blk hh

/-- C8 (amended): in every trial cycle of a real run the events occur in
the order: the trial action is timed, the duration is appended, the
estimator is queried, the progress log lines are emitted, and only then is
the cleanup callback invoked (the source calls cleanup last in the loop,
after the estimator query and the progress logs, not before them). -/
theorem trial_cycle_event_order (b : Run) (h : 1 ≤ b.run_count) :
    ∃ blocks : List (List Event),
      (execute_run b).2 = Event.logSetupMsg :: Event.setupCall :: blocks.flatten ∧
      blocks.length = b.run_count ∧
      ∀ blk ∈ blocks, ∃ k d r,
        blk = [Event.logRunStart k b.run_count, Event.trialTimed d,
               Event.appendRun d, Event.estimatorQuery r,
               Event.logCompleted d, Event.logRemaining r,
               Event.logCleanupMsg, Event.cleanupCall] := by
  have hlt : ¬ b.run_count < 1 := by omega
  obtain ⟨blocks, hb1, hb2, hb3⟩ := run_loop_blocks b b.run_count []
  refine ⟨blocks, ?_, hb2, hb3⟩
  simp [execute_run, hlt, hb1]

/-- Witness for `trial_cycle_event_order` at the one-trial branch. -/
theorem trial_cycle_event_order_witness :
    1 ≤ run1.run_count ∧
    (∃ blocks : List (List Event),
      (execute_run run1).2 =
        Event.logSetupMsg :: Event.setupCall :: blocks.flatten ∧
      blocks.length = run1.run_count ∧
      ∀ blk ∈ blocks, ∃ k d r,
        blk = [Event.logRunStart k run1.run_count, Event.trialTimed d,
               Event.appendRun d, Event.estimatorQuery r,
               Event.logCompleted d, Event.logRemaining r,
               Event.logCleanupMsg, Event.cleanupCall]) :=
  ⟨by norm_num [run1], trial_cycle_event_order run1 (by norm_num [run1])⟩

/-- Counterexample to C1 as stated: producing the report from the history
`[2, 1]` leaves that history as `[1, 2]`, not in its completion order. -/
theorem gather_output_reorders_history_cex :
    (gather_output fmt0 [] [] [2, 1] [3]).2.1 = [1, 2] ∧
    (gather_output fmt0 [] [] [2, 1] [3]).2.1 ≠ [2, 1] := by
  have h : (gather_output fmt0 [] [] [2, 1] [3]).2.1 = [1, 2] := by
    norm_num [gather_output, List.insertionSort, List.orderedInsert]
  refine ⟨h, ?_⟩
  rw [h]
  intro hc
  exact absurd (List.cons.injEq .. ▸ hc).1 (by norm_num)

/-- C1 (amended): `gather_output` sorts both histories in place: after the
report is produced each history holds the ascending sort (a sorted
permutation) of its former contents, not the completion order. -/
theorem gather_output_sorts_in_place (fmt : ℚ → List Char)
    (devName baseName : List Char) (dev base : List ℚ) :
    (gather_output fmt devName baseName dev base).2.1.Perm dev ∧
    (gather_output fmt devName baseName dev base).2.1.Sorted (· ≤ ·) ∧
    (gather_output fmt devName baseName dev base).2.2.Perm base ∧
    (gather_output fmt devName baseName dev base).2.2.Sorted (· ≤ ·) := by
  refine ⟨?_, ?_, ?_, ?_⟩ <;> simp only [gather_output] <;>
    first
      | exact List.perm_insertionSort _ _
      | exact List.sorted_insertionSort _ _

/-- C4: both estimator policies compute a banker's rounding of the mean
times the count of trials still outstanding under their respective cost
models; on history `[2.0]` with planned count 5 they give 8 and 18. -/
theorem estimator_policies (l : List ℚ) (n : ℕ) (h : l ≠ []) :
    time_remaining_linear l n =
      roundHalfEven (mean l * ((n : ℚ) - (l.length : ℚ))) ∧
    time_remaining_double l n =
      roundHalfEven (mean l * (2 * (n : ℚ) - (l.length : ℚ))) ∧
    time_remaining_linear [2] 5 = 8 ∧
    time_remaining_double [2] 5 = 18 := by
  refine ⟨?_, ?_, ?_, ?_⟩
  · rw [time_remaining_linear]; congr 1; push_cast; ring
  · rw [time_remaining_double]; congr 1; push_cast; ring
  · norm_num [time_remaining_linear, mean, roundHalfEven]
  · norm_num [time_remaining_double, mean, roundHalfEven]

/-- Witness for `estimator_policies` at history `[2.0]`, planned count 5. -/
theorem estimator_policies_witness :
    ([2] : List ℚ) ≠ [] ∧
    (time_remaining_linear [2] 5 =
      roundHalfEven (mean [2] * ((5 : ℚ) - (([2] : List ℚ).length : ℚ))) ∧
    time_remaining_double [2] 5 =
      roundHalfEven (mean [2] * (2 * (5 : ℚ) - (([2] : List ℚ).length : ℚ))) ∧
    time_remaining_linear [2] 5 = 8 ∧
    time_remaining_double [2] 5 = 18) :=
  ⟨by simp, estimator_policies [2] 5 (by simp)⟩

/-- C5: the time-remaining display prints seconds up to 60, minutes up to
3600 and hours above that, and the minute and hour counts are the ceiling
of the division (never less than the exact quotient). -/
theorem time_display_spec (N : ℤ) (h0 : 0 ≤ N) :
    (N ≤ 60 → time_string N = toString N ++ " seconds") ∧
    (60 < N → N ≤ 3600 →
      time_string N = toString ⌈(N : ℚ) / 60⌉ ++ " minutes" ∧
      N ≤ 60 * ⌈(N : ℚ) / 60⌉ ∧ 60 * ⌈(N : ℚ) / 60⌉ < N + 60) ∧
    (3600 < N →
      time_string N = toString ⌈(N : ℚ) / 3600⌉ ++ " hours" ∧
      N ≤ 3600 * ⌈(N : ℚ) / 3600⌉ ∧ 3600 * ⌈(N : ℚ) / 3600⌉ < N + 3600) ∧
    time_string 45 = "45 seconds" ∧
    time_string 90 = "2 minutes" ∧
    time_string 4000 = "2 hours" := by
  refine ⟨?_, ?_, ?_, ?_, ?_, ?_⟩
  · intro h
    rw [time_string, if_neg (by omega), if_neg (by omega)]
  · intro h1 _
    refine ⟨by rw [time_string, if_neg (by omega), if_pos h1], ?_, ?_⟩
    · have hc := Int.le_ceil ((N : ℚ) / 60)
      have hq : (N : ℚ) ≤ 60 * (⌈(N : ℚ) / 60⌉ : ℚ) := by
        have he : (60 : ℚ) * ((N : ℚ) / 60) = (N : ℚ) := by ring
        linarith
      exact_mod_cast hq
    · have hc := Int.ceil_lt_add_one ((N : ℚ) / 60)
      have hq : 60 * ((⌈(N : ℚ) / 60⌉ : ℚ)) < (N : ℚ) + 60 := by
        have he : (60 : ℚ) * ((N : ℚ) / 60) = (N : ℚ) := by ring
        linarith
      exact_mod_cast hq
  · intro h1
    refine ⟨by rw [time_string, if_pos h1], ?_, ?_⟩
    · have hc := Int.le_ceil ((N : ℚ) / 3600)
      have hq : (N : ℚ) ≤ 3600 * (⌈(N : ℚ) / 3600⌉ : ℚ) := by
        have he : (3600 : ℚ) * ((N : ℚ) / 3600) = (N : ℚ) := by ring
        linarith
      exact_mod_cast hq
    · have hc := Int.ceil_lt_add_one ((N : ℚ) / 3600)
      have hq : 3600 * ((⌈(N : ℚ) / 3600⌉ : ℚ)) < (N : ℚ) + 3600 := by
        have he : (3600 : ℚ) * ((N : ℚ) / 3600) = (N : ℚ) := by ring
        linarith
      exact_mod_cast hq
  · rw [time_string, if_neg (by norm_num), if_neg (by norm_num)]
    decide
  · rw [time_string, if_neg (by norm_num), if_pos (by norm_num),
      show ⌈(((90 : ℤ) : ℚ)) / 60⌉ = 2 from by norm_num [Int.ceil_eq_iff]]
    decide
  · rw [time_string, if_pos (by norm_num),
      show ⌈(((4000 : ℤ) : ℚ)) / 3600⌉ = 2 from by norm_num [Int.ceil_eq_iff]]
    decide

/-- Witness for `time_display_spec` at `N = 90`. -/
theorem time_display_spec_witness :
    (0 : ℤ) ≤ 90 ∧
    (((90 : ℤ) ≤ 60 → time_string 90 = toString (90 : ℤ) ++ " seconds") ∧
    ((60 : ℤ) < 90 → (90 : ℤ) ≤ 3600 →
      time_string 90 = toString ⌈((90 : ℤ) : ℚ) / 60⌉ ++ " minutes" ∧
      (90 : ℤ) ≤ 60 * ⌈((90 : ℤ) : ℚ) / 60⌉ ∧
      60 * ⌈((90 : ℤ) : ℚ) / 60⌉ < 90 + 60) ∧
    ((3600 : ℤ) < 90 →
      time_string 90 = toString ⌈((90 : ℤ) : ℚ) / 3600⌉ ++ " hours" ∧
      (90 : ℤ) ≤ 3600 * ⌈((90 : ℤ) : ℚ) / 3600⌉ ∧
      3600 * ⌈((90 : ℤ) : ℚ) / 3600⌉ < 90 + 3600) ∧
    time_string 45 = "45 seconds" ∧
    time_string 90 = "2 minutes" ∧
    time_string 4000 = "2 hours") :=
  ⟨by norm_num, time_display_spec 90 (by norm_num)⟩

/-- C6: the improvement percentage is `100 × (base − candidate) / base`;
the caller reports IMPROVED BY exactly when the two-decimal rounding of it
is positive and otherwise DEGRADED BY with the absolute value; at
`(10, 8)` it is 20 and at `(8, 10)` it is −25. -/
theorem improvement_spec (fmt : ℚ → List Char) (name : List Char) (d b : ℚ) :
    improvement b d = 100 * ((b - d) / b) ∧
    (0 < round2 (improvement b d) →
      get_stat fmt name d b =
        [⟨name ++ " dev".toList, some (fmt d), '.'⟩,
         ⟨name ++ " base".toList, some (fmt b), '.'⟩,
         ⟨"IMPROVED BY".toList,
          some (fmt (round2 (improvement b d)) ++ " ".toList), '.'⟩,
         ⟨[], none, ' '⟩]) ∧
    (round2 (improvement b d) ≤ 0 →
      get_stat fmt name d b =
        [⟨name ++ " dev".toList, some (fmt d), '.'⟩,
         ⟨name ++ " base".toList, some (fmt b), '.'⟩,
         ⟨"DEGRADED BY".toList,
          some (fmt |round2 (improvement b d)| ++ " %".toList), '.'⟩,
         ⟨[], none, ' '⟩]) ∧
    improvement 10 8 = 20 ∧
    improvement 8 10 = -25 := by
  refine ⟨rfl, ?_, ?_, by norm_num [improvement], by norm_num [improvement]⟩
  · intro h
    simp only [get_stat, if_pos h]
    rfl
  · intro h
    simp only [get_stat, if_neg (not_lt.mpr h)]
    rfl

/-- Witness for `improvement_spec` at base 10, candidate 8. -/
theorem improvement_spec_witness :
    improvement 10 8 = 100 * ((10 - 8) / 10) ∧
    (0 < round2 (improvement 10 8) →
      get_stat fmt0 [] 8 10 =
        [⟨[] ++ " dev".toList, some (fmt0 8), '.'⟩,
         ⟨[] ++ " base".toList, some (fmt0 10), '.'⟩,
         ⟨"IMPROVED BY".toList,
          some (fmt0 (round2 (improvement 10 8)) ++ " ".toList), '.'⟩,
         ⟨[], none, ' '⟩]) ∧
    (round2 (improvement 10 8) ≤ 0 →
      get_stat fmt0 [] 8 10 =
        [⟨[] ++ " dev".toList, some (fmt0 8), '.'⟩,
         ⟨[] ++ " base".toList, some (fmt0 10), '.'⟩,
         ⟨"DEGRADED BY".toList,
          some (fmt0 |round2 (improvement 10 8)| ++ " %".toList), '.'⟩,
         ⟨[], none, ' '⟩]) ∧
    improvement 10 8 = 20 ∧
    improvement 8 10 = -25 :=
  improvement_spec fmt0 [] 8 10

/-- The stable sort used by the embedding agrees with the canonical sort
of the underlying multiset. -/
theorem insertionSort_eq_multiset_sort (l : List ℚ) :
    l.insertionSort (· ≤ ·) = Multiset.sort (· ≤ ·) (l : Multiset ℚ) := by
  apply List.eq_of_perm_of_sorted (r := (· ≤ ·))
  · exact (List.perm_insertionSort _ _).trans
      (Multiset.coe_eq_coe.mp (Multiset.sort_eq (· ≤ ·) (l : Multiset ℚ))).symm
  · exact List.sorted_insertionSort _ _
  · exact Multiset.sort_sorted _ _

/-- The engine's median is the conventional multiset median. -/
theorem pymedian_eq_conventionalMedian (l : List ℚ) :
    pymedian l = conventionalMedian l := by
  simp only [pymedian, conventionalMedian, insertionSort_eq_multiset_sort]

/-- The engine's median does not change under reordering of its input. -/
theorem pymedian_perm_invariant (h h' : List ℚ) (hp : h.Perm h') :
    pymedian h' = pymedian h := by
  rw [pymedian_eq_conventionalMedian, pymedian_eq_conventionalMedian]
  simp only [conventionalMedian]
  rw [show ((h' : Multiset ℚ)) = (h : Multiset ℚ) from
      Multiset.coe_eq_coe.mpr hp.symm, ← hp.length_eq]

/-- C9: the statistics engine's median (as reported, rounded to two
decimals) equals the conventional statistical median of the values — the
multiset median, which averages the two middle values for even length —
and is invariant under any reordering of the history. -/
theorem median_spec (h h' : List ℚ) (hne : h ≠ []) (hp : h.Perm h') :
    pymedian h = conventionalMedian h ∧
    round2 (pymedian h) = round2 (conventionalMedian h) ∧
    pymedian h' = pymedian h ∧
    round2 (pymedian h') = round2 (pymedian h) := by
  refine ⟨pymedian_eq_conventionalMedian h, by
    rw [pymedian_eq_conventionalMedian], ?_, ?_⟩
  · exact pymedian_perm_invariant h h' hp
  · rw [pymedian_perm_invariant h h' hp]

/-- Witness for `median_spec` on the even-length history `[4, 6]` and its
reordering `[6, 4]`. -/
theorem median_spec_witness :
    ([4, 6] : List ℚ) ≠ [] ∧ ([4, 6] : List ℚ).Perm [6, 4] ∧
    (pymedian [4, 6] = conventionalMedian [4, 6] ∧
     round2 (pymedian [4, 6]) = round2 (conventionalMedian [4, 6]) ∧
     pymedian [6, 4] = pymedian [4, 6] ∧
     round2 (pymedian [6, 4]) = round2 (pymedian [4, 6])) ∧
    pymedian [4, 6] = 5 :=
  ⟨by simp, List.Perm.swap 6 4 [],
   median_spec [4, 6] [6, 4] (by simp) (List.Perm.swap 6 4 []),
   by norm_num [pymedian, List.insertionSort, List.orderedInsert]⟩

/-- The seed of a running maximum bounds the result. -/
theorem foldl_max_init_le {α : Type} (f : α → ℕ) :
    ∀ (l : List α) (a : ℕ), a ≤ l.foldl (fun x y => max x (f y)) a
  | [], a => le_refl a
  | y :: l, a =>
      le_trans (le_max_left a (f y)) (foldl_max_init_le f l (max a (f y)))

/-- Every member of a list bounds the list's running maximum from below. -/
theorem le_foldl_max {α : Type} (f : α → ℕ) (l : List α) :
    ∀ (a : ℕ) (y : α), y ∈ l → f y ≤ l.foldl (fun x y => max x (f y)) a := by
  induction l with
  | nil => intro a y hy; exact absurd hy (List.not_mem_nil y)
  | cons z l ih =>
      intro a y hy
      rcases List.mem_cons.mp hy with hh | hh
      · subst hh
        exact le_trans (le_max_right a (f y)) (foldl_max_init_le f l _)
      · exact ih (max a (f z)) y hh

/-- Every row rendered at width `W` is at least `W` characters wide
(centering can overshoot by one and oversized labels overflow, but no row
comes up short). -/
theorem pair_to_line_length_ge (W : ℕ) (kv : ReportLine) :
    W ≤ (pair_to_line W kv).length := by
  rcases hv : kv.value with _ | v <;>
    simp only [pair_to_line, hv] <;>
    simp only [List.length_append, List.length_replicate] <;>
    omega

/-- A valued row whose key and value fit in the width renders to exactly
`W` characters. -/
theorem pair_to_line_length_eq (W : ℕ) (kv : ReportLine) (v : List Char)
    (hv : kv.value = some v) (hkv : kv.label.length + v.length ≤ W) :
    (pair_to_line W kv).length = W := by
  simp only [pair_to_line, hv]
  simp only [List.length_append, List.length_replicate]
  omega

/-- When the second-to-last input line carries a value, every row of the
rendered report is exactly as wide as the first-pass full width. -/
theorem print_results_row_length (kvs : List ReportLine) (h2 : 2 ≤ kvs.length)
    (v : List Char) (hv2 : (kvs.getD (kvs.length - 2) default).value = some v) :
    ∀ r ∈ print_results kvs, r.length =
      6 + (header_line :: kvs).foldl
            (fun x y => max x (key_len_of_non_none_values y)) 0
        + (header_line :: kvs).foldl
            (fun x y => max x (len_none_is_zero y.value)) 0 := by
  intro r hr
  simp only [print_results] at hr
  obtain ⟨line, hline, rfl⟩ := List.mem_map.mp hr
  obtain ⟨kv, hkv, rfl⟩ := List.mem_map.mp hline
  rw [List.length_take]
  -- abbreviate the first-pass width
  generalize hW : 6 + (header_line :: kvs).foldl
      (fun x y => max x (key_len_of_non_none_values y)) 0
    + (header_line :: kvs).foldl
      (fun x y => max x (len_none_is_zero y.value)) 0 = W at *
  -- the second-to-last rendered row is the second-to-last input line
  have hlt : kvs.length - 2 < kvs.length := by omega
  have hgetd : kvs.getD (kvs.length - 2) default = kvs[kvs.length - 2] :=
    List.getD_eq_getElem kvs default hlt
  have hmem2 : kvs[kvs.length - 2] ∈ header_line :: kvs :=
    List.mem_cons_of_mem _ (List.getElem_mem hlt)
  -- any line in the first pass whose value is present renders to width W
  have hval_eq : ∀ kv' ∈ header_line :: kvs, ∀ v', kv'.value = some v' →
      (pair_to_line W kv').length = W := by
    intro kv' hkv' v' hvv
    apply pair_to_line_length_eq W kv' v' hvv
    have hb1 : key_len_of_non_none_values kv' ≤
        (header_line :: kvs).foldl
          (fun x y => max x (key_len_of_non_none_values y)) 0 :=
      le_foldl_max _ _ 0 kv' hkv'
    have hb2 : len_none_is_zero kv'.value ≤
        (header_line :: kvs).foldl
          (fun x y => max x (len_none_is_zero y.value)) 0 :=
      le_foldl_max (fun y => len_none_is_zero y.value) _ 0 kv' hkv'
    have hk : key_len_of_non_none_values kv' = kv'.label.length := by
      simp [key_len_of_non_none_values, hvv]
    have hlv : len_none_is_zero kv'.value = v'.length := by
      simp [len_none_is_zero, hvv]
    rw [hk] at hb1
    rw [hlv] at hb2
    omega
  -- hence the truncation width equals W
  have hsucc : kvs.length + 1 - 2 = (kvs.length - 2) + 1 := by omega
  have hfw : (((header_line :: kvs).map (pair_to_line W)).map
        List.length).getD
      ((((header_line :: kvs).map (pair_to_line W)).map List.length).length - 2)
      0 = W := by
    have hlen : (((header_line :: kvs).map (pair_to_line W)).map
        List.length).length = kvs.length + 1 := by simp
    have hlt' : kvs.length + 1 - 2 <
        (((header_line :: kvs).map (pair_to_line W)).map List.length).length := by
      rw [hlen]; omega
    rw [hlen, List.getD_eq_getElem _ 0 hlt']
    simp only [List.getElem_map]
    have hidx : ∀ hsh : kvs.length + 1 - 2 < (header_line :: kvs).length,
        (header_line :: kvs)[kvs.length + 1 - 2] = kvs[kvs.length - 2] := by
      intro hsh
      simp only [hsucc]
      exact List.getElem_cons_succ header_line kvs (kvs.length - 2) _
    rw [hidx]
    exact hval_eq _ hmem2 v (hgetd ▸ hv2)
  rw [hfw]
  exact Nat.min_eq_left (pair_to_line_length_ge W kv)

/-- C7 (amended): for every input whose second-to-last line is value-
bearing — as in every report the program builds, where the IMPROVED
BY/DEGRADED BY line precedes the final separator — all rendered rows have
the same length, namely the width to which the second-to-last row was
rendered.  (For inputs whose second-to-last line is a header or separator
the property fails; see the counterexample.) -/
theorem render_rows_uniform (kvs : List ReportLine) (h2 : 2 ≤ kvs.length)
    (hv : ((kvs.getD (kvs.length - 2) default).value).isSome = true) :
    ∀ r1 ∈ print_results kvs, ∀ r2 ∈ print_results kvs,
      r1.length = r2.length := by
  obtain ⟨v, hv2⟩ := Option.isSome_iff_exists.mp hv
  intro r1 h1 r2 hh2
  rw [print_results_row_length kvs h2 v hv2 r1 h1,
    print_results_row_length kvs h2 v hv2 r2 hh2]

/-- Witness for `render_rows_uniform` on a two-line value-bearing input. -/
theorem render_rows_uniform_witness :
    2 ≤ c7wit.length ∧
    ((c7wit.getD (c7wit.length - 2) default).value).isSome = true ∧
    (∀ r1 ∈ print_results c7wit, ∀ r2 ∈ print_results c7wit,
      r1.length = r2.length) :=
  ⟨by decide, by decide, render_rows_uniform c7wit (by decide) (by decide)⟩

/-- Counterexample to C7 as stated: on a valid input with one value-bearing
line followed by two separator lines, the rendered rows have lengths
10, 9, 10 and 10 — not all equal, because the second-to-last row is a
separator row that centering made one column wider than the full width. -/
theorem render_rows_not_uniform_cex :
    ((print_results c7cex).map List.length = [10, 9, 10, 10]) ∧
    ¬ (∀ r1 ∈ print_results c7cex, ∀ r2 ∈ print_results c7cex,
        r1.length = r2.length) := by
  constructor
  · decide
  · intro hall
    have hmem0 : (print_results c7cex).getD 0 [] ∈ print_results c7cex := by
      decide
    have hmem1 : (print_results c7cex).getD 1 [] ∈ print_results c7cex := by
      decide
    have heq := hall _ hmem0 _ hmem1
    have h0 : ((print_results c7cex).getD 0 []).length = 10 := by decide
    have h1 : ((print_results c7cex).getD 1 []).length = 9 := by decide
    rw [h0, h1] at heq
    exact absurd heq (by decide)

end Benchmark
